import Mathlib

/-!
Verification of `legendary_replace_tool.py`, a project-scaffolding utility that
clones a template directory while substituting tags in file contents and in
file and directory names.  Strings are modelled as `List Char`, Python's
`str.replace` as `pyReplace`, the global tag dictionary `tags_template` as an
association list, and the two tree walks (`copy_directory_with_replace` and
`recursive_replace`) as pure functions that also report the I/O actions they
would perform.
-/

namespace LRT

/-- Strings as lists of characters. -/
abbrev Str := List Char

/-! ### Python `str.replace`

`pyReplaceAux pat rep fuel s` scans `s` left to right; whenever `pat` is a
prefix of the remaining input it emits `rep` and skips `pat.length`
characters (global, leftmost, non-overlapping replacement — exactly Python's
`s.replace(pat, rep)`).  The `fuel` argument (instantiated with `s.length`)
only makes the recursion structural; it never runs out. -/
def pyReplaceAux (pat rep : Str) : Nat → Str → Str
  | _, [] => if pat = [] then rep else []
  | 0, c :: rest => c :: rest
  | fuel + 1, c :: rest =>
    if pat ≠ [] ∧ pat.isPrefixOf (c :: rest) = true then
      rep ++ pyReplaceAux pat rep fuel ((c :: rest).drop pat.length)
    else if pat = [] then
      rep ++ c :: pyReplaceAux pat rep fuel rest
    else
      c :: pyReplaceAux pat rep fuel rest

/-- Python's `s.replace(pat, rep)`. -/
def pyReplace (s pat rep : Str) : Str := pyReplaceAux pat rep s.length s

theorem pyReplaceAux_fuel (pat rep : Str) :
    ∀ f₁ f₂ s, s.length ≤ f₁ → s.length ≤ f₂ →
      pyReplaceAux pat rep f₁ s = pyReplaceAux pat rep f₂ s := by
  intro f₁
  induction f₁ with
  | zero =>
    intro f₂ s h₁ _
    have : s = [] := List.eq_nil_of_length_eq_zero (Nat.le_zero.mp h₁)
    subst this
    cases f₂ <;> rfl
  | succ f ih =>
    intro f₂ s h₁ h₂
    cases s with
    | nil => cases f₂ <;> rfl
    | cons c rest =>
      cases f₂ with
      | zero => simp at h₂
      | succ f₂' =>
        simp only [pyReplaceAux]
        by_cases hm : pat ≠ [] ∧ pat.isPrefixOf (c :: rest) = true
        · simp only [if_pos hm]
          have hplen : 0 < pat.length := List.length_pos.mpr hm.1
          have hd : ((c :: rest).drop pat.length).length ≤ f := by
            simp only [List.length_drop, List.length_cons]
            simp only [List.length_cons] at h₁
            omega
          have hd₂ : ((c :: rest).drop pat.length).length ≤ f₂' := by
            simp only [List.length_drop, List.length_cons]
            simp only [List.length_cons] at h₂
            omega
          rw [ih f₂' _ hd hd₂]
        · simp only [if_neg hm]
          have hr : rest.length ≤ f := by
            simp only [List.length_cons] at h₁; omega
          have hr₂ : rest.length ≤ f₂' := by
            simp only [List.length_cons] at h₂; omega
          by_cases hp : pat = []
          · simp only [if_pos hp, ih f₂' rest hr hr₂]
          · simp only [if_neg hp, ih f₂' rest hr hr₂]

theorem pyReplace_nil (pat rep : Str) :
    pyReplace [] pat rep = if pat = [] then rep else [] := rfl

theorem pyReplace_cons_match {pat : Str} (rep : Str) {c : Char} {rest : Str}
    (h : pat ≠ []) (hp : pat.isPrefixOf (c :: rest) = true) :
    pyReplace (c :: rest) pat rep =
      rep ++ pyReplace ((c :: rest).drop pat.length) pat rep := by
  unfold pyReplace
  simp only [List.length_cons, pyReplaceAux, if_pos (And.intro h hp)]
  congr 1
  exact pyReplaceAux_fuel pat rep rest.length ((c :: rest).drop pat.length).length _
    (by simp only [List.length_drop, List.length_cons]
        have : 0 < pat.length := List.length_pos.mpr h
        omega)
    (le_refl _)

theorem pyReplace_cons_nomatch {pat : Str} (rep : Str) {c : Char} {rest : Str}
    (h : pat ≠ []) (hp : ¬ pat.isPrefixOf (c :: rest) = true) :
    pyReplace (c :: rest) pat rep = c :: pyReplace rest pat rep := by
  unfold pyReplace
  simp only [List.length_cons, pyReplaceAux]
  rw [if_neg (by simp [hp]), if_neg h]

/-! ### The tag map and the derived key order

`tags_template` is a JSON object, i.e. a finite string-to-string mapping with
unique keys; we model it as an association list in insertion order.
`tags_sorted_by_longest` models
`sorted(tags_template, key=lambda k: len(k), reverse=True)` (forward) resp.
`sorted(tags_template, key=lambda k: len(tags_template[k]), reverse=True)`
(reverse mode): a stable sort of the keys by descending length of the
relevant string. -/
abbrev TagMap := List (Str × Str)

/-- Dictionary lookup `tags_template[key]`. -/
def tagValue (tm : TagMap) (k : Str) : Str :=
  ((tm.find? (fun p => p.1 == k)).map Prod.snd).getD []

/-- Stable insertion: place `x` in front of the first element `y` with
`le x y`; elements the order ties are kept in their original order, as
Python's stable `sorted` does. -/
def stableInsert (le : α → α → Bool) (x : α) : List α → List α
  | [] => [x]
  | y :: ys => if le x y then x :: y :: ys else y :: stableInsert le x ys

/-- A stable sort — the contract of Python's `sorted(...)`. -/
def pySorted (le : α → α → Bool) (l : List α) : List α :=
  l.foldr (stableInsert le) []

/-- The global `tags_sorted_by_longest` list computed in `__main__`: the
keys of `tags_template`, stably sorted by descending length of the key
(forward mode) resp. of the key's value (`--REVERSE`). -/
def tags_sorted_by_longest (tm : TagMap) (reverse : Bool) : List Str :=
  if reverse then
    pySorted (fun a b => decide ((tagValue tm b).length ≤ (tagValue tm a).length))
      (tm.map Prod.fst)
  else
    pySorted (fun a b => decide (b.length ≤ a.length)) (tm.map Prod.fst)

/-- The destination-path substitution at the top of
`copy_directory_with_replace`: `for key in tags_sorted_by_longest:
dest = dest.replace(key, tags_template[key])`.  The key order is the global
list, passed in as `order`. -/
def replace_in_dest (tm : TagMap) (order : List Str) (s : Str) : Str :=
  order.foldl (fun d key => pyReplace d key (tagValue tm key)) s

/-- The per-file substitution loop of `recursive_replace`, one full pass per
key: forward replaces `key` by `tags_template[key]`, reverse replaces
`tags_template[key]` by `key`. -/
def applyTags (tm : TagMap) (reverse : Bool) (data : Str) : Str :=
  (tags_sorted_by_longest tm reverse).foldl
    (fun d key =>
      if reverse then pyReplace d (tagValue tm key) key
      else pyReplace d key (tagValue tm key)) data

/-! ### File trees -/

/-- A file body: either text (decodable, `open(..., "rt")` succeeds) or
binary bytes (reading as text raises `UnicodeDecodeError`). -/
inductive FileContent where
  | text (s : Str)
  | binary (bytes : List Nat)
deriving DecidableEq

/-- A directory entry of the source tree: a regular file (with content and
permission mode bits) or a directory with children, in `os.listdir` order. -/
inductive Entry where
  | file (name : Str) (content : FileContent) (mode : Nat)
  | dir (name : Str) (children : List Entry)

def Entry.name : Entry → Str
  | .file n _ _ => n
  | .dir n _ => n

/-- Model of `os.path.join` for a directory and a relative entry name. -/
def joinPath (a b : Str) : Str := a ++ '/' :: b

/-- The hard-coded skip test in `recursive_replace`:
`".DS_Store" in filename or ".idea" in filename or "__pycache__" in
filename`. -/
def ignoredName (filename : Str) : Bool :=
  decide (".DS_Store".toList <:+: filename)
    || decide (".idea".toList <:+: filename)
    || decide ("__pycache__".toList <:+: filename)

/-! ### The content rewriter `recursive_replace`

Besides the rewritten tree, the model reports the side effects the Python
code performs: one write-back per key for a text file, and one printed
diagnostic per key for a file whose read raises `UnicodeDecodeError`. -/

inductive REvent where
  | wrote (path : Str)
  | diag (path : Str)
deriving DecidableEq

/-- The inner `for key in tags_sorted_by_longest` loop of
`recursive_replace` on one file: each iteration opens the file, reads it,
replaces one key and writes the result back; a binary file raises
`UnicodeDecodeError` on every iteration and prints the diagnostic instead. -/
def replace_in_file (tm : TagMap) (order : List Str) (reverse : Bool)
    (filepath : Str) (content : FileContent) : FileContent × List REvent :=
  order.foldl
    (fun acc key =>
      match acc.1 with
      | .text s =>
        (.text (if reverse then pyReplace s (tagValue tm key) key
                else pyReplace s key (tagValue tm key)),
         acc.2 ++ [.wrote filepath])
      | .binary b => (.binary b, acc.2 ++ [.diag filepath]))
    (content, [])

mutual

/-- The walk `recursive_replace(basepath, reverse)` over the entries of `basepath`:
entries whose name contains an ignored substring are skipped entirely
(`continue`), the rest are processed by `rrEntry`. -/
def recursive_replace (tm : TagMap) (order : List Str) (reverse : Bool)
    (basepath : Str) : List Entry → List Entry × List REvent
  | [] => ([], [])
  | e :: rest =>
    let head :=
      if ignoredName e.name then (e, ([] : List REvent))
      else rrEntry tm order reverse basepath e
    let tail := recursive_replace tm order reverse basepath rest
    (head.1 :: tail.1, head.2 ++ tail.2)

/-- One non-ignored entry of `recursive_replace`: directories are recursed
into, files go through `replace_in_file`. -/
def rrEntry (tm : TagMap) (order : List Str) (reverse : Bool)
    (basepath : Str) : Entry → Entry × List REvent
  | .file n c m =>
    let r := replace_in_file tm order reverse (joinPath basepath n) c
    (.file n r.1 m, r.2)
  | .dir n children =>
    let sub := recursive_replace tm order reverse (joinPath basepath n) children
    (.dir n sub.1, sub.2)

end

/-! ### The directory cloner `copy_directory_with_replace` -/

/-- A filesystem action of the cloner: `ensureDir` is
`if not os.path.isdir(dest): os.makedirs(dest)`, `copyfile` is
`shutil.copyfile(src, dest)` followed by `os.chmod(dest, st_mode_of_src)`. -/
inductive CloneOp where
  | ensureDir (dest : Str)
  | copyfile (src dest : Str) (content : FileContent) (mode : Nat)
deriving DecidableEq

def CloneOp.dest : CloneOp → Str
  | .ensureDir d => d
  | .copyfile _ d _ _ => d

/-- Models OS path resolution for the path shapes exercised here (an
external collaborator of the script, not code of the repository): a leading
`./` is dropped, so `./x` and `x` resolve to the same path.
`shutil.copyfile` raises `SameFileError` exactly when source and
destination resolve to the same file. -/
def resolve : Str → Str
  | '.' :: '/' :: rest => resolve rest
  | p => p

/-- The cloner `copy_directory_with_replace(src, dest_raw, ignore)`: substitutes every
tag in the whole accumulated destination path, then either recurses over the
children of a directory (skipping names selected by `ignore`, when given) or
copies a single file together with its permission bits; a copy onto the same
file (`shutil.SameFileError`, a `shutil.Error`) is silently skipped. -/
def copy_directory_with_replace (tm : TagMap) (order : List Str)
    (ignore : Option (Str → Bool)) (src dest_raw : Str) : Entry → List CloneOp
  | .file _ c m =>
    let dest := replace_in_dest tm order dest_raw
    if resolve src = resolve dest then [] else [.copyfile src dest c m]
  | .dir _ children =>
    let dest := replace_in_dest tm order dest_raw
    .ensureDir dest :: go src dest children
where
  /-- The `for f in files: if f not in ignored: ...` loop. -/
  go (src dest : Str) : List Entry → List CloneOp
  | [] => []
  | e :: rest =>
    (if (match ignore with | some f => f e.name | none => false) then []
     else copy_directory_with_replace tm order ignore
       (joinPath src e.name) (joinPath dest e.name) e) ++ go src dest rest

/-! ### `__main__` -/

/-- One phase of `__main__`, in program order. -/
inductive Phase where
  | createOutRoot (p : Str)
  | resourceFatal
  | clonePhase (source out : Str)
  | rewritePhase (out : Str) (reverse : Bool)
deriving DecidableEq

/-- The `__main__` block: create the `--out` root if absent, load the tag
map (aborting on a missing or malformed resource), clone unless
`args.source != args.out` fails, then rewrite contents under `--out`. -/
def mainPhases (outExists : Bool) (tagsRes : Option TagMap)
    (source out : Str) (reverse : Bool) : List Phase :=
  (if outExists then [] else [.createOutRoot out]) ++
    match tagsRes with
    | none => [.resourceFatal]
    | some _ =>
      (if source ≠ out then [.clonePhase source out] else [])
        ++ [.rewritePhase out reverse]

/-! ### A small filesystem, to run the clone actions and read back the
resulting destination tree -/

inductive FSNode where
  | dirNode
  | fileNode (content : FileContent) (mode : Nat)
deriving DecidableEq

abbrev FS := List (Str × FSNode)

def applyCloneOp (fs : FS) : CloneOp → FS
  | .ensureDir d => if fs.any (fun e => e.1 == d) then fs else fs ++ [(d, .dirNode)]
  | .copyfile _ d c m => (fs.filter (fun e => !(e.1 == d))) ++ [(d, .fileNode c m)]

def applyCloneOps (fs : FS) (ops : List CloneOp) : FS := ops.foldl applyCloneOp fs

/-- If `p` is `root/<name>` with `<name>` a single non-empty segment,
return `<name>`. -/
def childNameUnder (root p : Str) : Option Str :=
  if (root ++ ['/']).isPrefixOf p then
    let n := p.drop (root.length + 1)
    if n.contains '/' || n.isEmpty then none else some n
  else none

/-- Read the directory tree rooted at `root` back out of the filesystem
(`fuel` bounds the recursion depth; any value beyond the path lengths in
`fs` is enough). -/
def treeChildren (fs : FS) : Nat → Str → List Entry
  | 0, _ => []
  | fuel + 1, root =>
    fs.filterMap
      (fun e =>
        match childNameUnder root e.1 with
        | some n =>
          match e.2 with
          | .dirNode => some (Entry.dir n (treeChildren fs fuel e.1))
          | .fileNode c m => some (Entry.file n c m)
        | none => none)

def fsFuel (fs : FS) : Nat := (fs.map (fun e => e.1.length)).sum + 1

/-- One whole run of the tool in the `source != out` case: clone the source
tree to `outPath` (with the ignore argument left at its default `None`),
then run `recursive_replace` on the destination tree.  Returns the
destination tree. -/
def runPipeline (tm : TagMap) (reverse : Bool) (srcTree : List Entry)
    (sourcePath outPath : Str) : List Entry :=
  let order := tags_sorted_by_longest tm reverse
  let ops := copy_directory_with_replace tm order none sourcePath outPath (.dir [] srcTree)
  let fs := applyCloneOps [] ops
  let t1 := treeChildren fs (fsFuel fs) outPath
  (recursive_replace tm order reverse outPath t1).1

mutual

/-- Flatten a tree to `(path, content, mode)` triples: two trees agree on
all file names and file contents exactly when their listings agree. -/
def listing (basepath : Str) : List Entry → List (Str × FileContent × Nat)
  | [] => []
  | e :: rest => listingEntry basepath e ++ listing basepath rest

def listingEntry (basepath : Str) : Entry → List (Str × FileContent × Nat)
  | .file n c m => [(joinPath basepath n, c, m)]
  | .dir n children => listing (joinPath basepath n) children

end

/-! ### Derived notions used by the statements -/

/-- Is this clone action a `shutil.copyfile` call? -/
def isCopyOp : CloneOp → Bool
  | .copyfile _ _ _ _ => true
  | .ensureDir _ => false

/-- The path a rewrite event touches. -/
def REvent.path : REvent → Str
  | .wrote p => p
  | .diag p => p

/-- Whether `p` is the root itself or lies strictly below it. -/
def underPath (root p : Str) : Bool :=
  root == p || (root ++ ['/']).isPrefixOf p

/-- Owner execute permission bit (0o100) of a `st_mode` value. -/
def hasExecBit (m : Nat) : Bool := m.testBit 6

/-- Lookup in the model filesystem. -/
def fsGet (fs : FS) (p : Str) : Option FSNode :=
  (fs.find? (fun e => e.1 == p)).map Prod.snd

/-- Whether a filesystem node is an executable regular file. -/
def nodeExec : FSNode → Bool
  | .fileNode _ m => hasExecBit m
  | .dirNode => false

mutual

/-- The `(content, mode)` pairs of all regular files in a tree. -/
def filesOfEntry : Entry → List (FileContent × Nat)
  | .file _ c m => [(c, m)]
  | .dir _ children => filesOfList children

def filesOfList : List Entry → List (FileContent × Nat)
  | [] => []
  | e :: rest => filesOfEntry e ++ filesOfList rest

end

mutual

/-- The destination paths `copy_directory_with_replace` accumulates before
tag substitution: the raw destination root extended with the source entry
names, level by level. -/
def rawDestPaths (destRaw : Str) : Entry → List Str
  | .file _ _ _ => [destRaw]
  | .dir _ children => destRaw :: rawDestPathsList destRaw children

def rawDestPathsList (destRaw : Str) : List Entry → List Str
  | [] => []
  | e :: rest => rawDestPaths (joinPath destRaw e.name) e ++ rawDestPathsList destRaw rest

end

/-- Forward substitution passes for an explicit list of `(tag, value)`
pairs, in list order. -/
def tagFoldFwd (ps : List (Str × Str)) (s : Str) : Str :=
  ps.foldl (fun d p => pyReplace d p.1 p.2) s

/-- Reverse substitution passes (`value → tag`) for an explicit list of
`(tag, value)` pairs, in list order. -/
def tagFoldRev (ps : List (Str × Str)) (s : Str) : Str :=
  ps.foldl (fun d p => pyReplace d p.2 p.1) s

/-! ## Lemmas about the stable sort -/

theorem stableInsert_perm (le : α → α → Bool) (x : α) :
    ∀ l : List α, (stableInsert le x l).Perm (x :: l) := by
  intro l
  induction l with
  | nil => exact List.Perm.refl _
  | cons y ys ih =>
    simp only [stableInsert]
    by_cases h : le x y = true
    · simp only [if_pos h]; exact List.Perm.refl _
    · simp only [if_neg h]
      exact (ih.cons y).trans (List.Perm.swap x y ys)

theorem pySorted_perm (le : α → α → Bool) :
    ∀ l : List α, (pySorted le l).Perm l := by
  intro l
  induction l with
  | nil => exact List.Perm.refl _
  | cons x xs ih =>
    simp only [pySorted, List.foldr_cons]
    exact (stableInsert_perm le x _).trans (ih.cons x)

theorem tags_sorted_by_longest_perm (tm : TagMap) (reverse : Bool) :
    (tags_sorted_by_longest tm reverse).Perm (tm.map Prod.fst) := by
  unfold tags_sorted_by_longest
  by_cases h : reverse = true <;> simp [h, pySorted_perm]

theorem tags_sorted_by_longest_length (tm : TagMap) (reverse : Bool) :
    (tags_sorted_by_longest tm reverse).length = tm.length := by
  rw [(tags_sorted_by_longest_perm tm reverse).length_eq, List.length_map]

theorem stableInsert_pairwise (le : α → α → Bool)
    (htot : ∀ a b, le a b = true ∨ le b a = true)
    (htrans : ∀ a b c, le a b = true → le b c = true → le a c = true)
    (x : α) : ∀ (l : List α), l.Pairwise (fun a b => le a b = true) →
      (stableInsert le x l).Pairwise (fun a b => le a b = true) := by
  intro l
  induction l with
  | nil => intro _; exact List.pairwise_singleton _ x
  | cons y ys ih =>
    intro hpw
    rcases List.pairwise_cons.mp hpw with ⟨hy, hys⟩
    simp only [stableInsert]
    by_cases hxy : le x y = true
    · rw [if_pos hxy]
      refine List.pairwise_cons.mpr ⟨?_, hpw⟩
      intro z hz
      rcases List.mem_cons.mp hz with h' | h'
      · subst h'; exact hxy
      · exact htrans x y z hxy (hy z h')
    · rw [if_neg hxy]
      refine List.pairwise_cons.mpr ⟨?_, ih hys⟩
      intro z hz
      rcases List.mem_cons.mp ((stableInsert_perm le x ys).mem_iff.mp hz) with h' | h'
      · rcases htot x y with h'' | h''
        · exact absurd h'' hxy
        · rw [h']; exact h''
      · exact hy z h'

theorem pySorted_pairwise (le : α → α → Bool)
    (htot : ∀ a b, le a b = true ∨ le b a = true)
    (htrans : ∀ a b c, le a b = true → le b c = true → le a c = true) :
    ∀ (l : List α), (pySorted le l).Pairwise (fun a b => le a b = true) := by
  intro l
  induction l with
  | nil => exact List.Pairwise.nil
  | cons x xs ih =>
    simp only [pySorted, List.foldr_cons]
    exact stableInsert_pairwise le htot htrans x _ ih

/-- Two distinct members of a list occur in one order or the other. -/
theorem pair_sublist_of_mem {α : Type} :
    ∀ (l : List α) (a b : α), a ≠ b → a ∈ l → b ∈ l →
      List.Sublist [a, b] l ∨ List.Sublist [b, a] l := by
  intro l
  induction l with
  | nil => intro a b _ ha _; exact absurd ha (List.not_mem_nil a)
  | cons h t ih =>
    intro a b hab ha hb
    rcases List.mem_cons.mp ha with ha' | ha'
    · subst ha'
      have hb' : b ∈ t := by
        rcases List.mem_cons.mp hb with h' | h'
        · exact absurd h'.symm hab
        · exact h'
      exact Or.inl (List.Sublist.cons₂ a (List.singleton_sublist.mpr hb'))
    · rcases List.mem_cons.mp hb with hb' | hb'
      · subst hb'
        exact Or.inr (List.Sublist.cons₂ b (List.singleton_sublist.mpr ha'))
      · rcases ih a b hab ha' hb' with h' | h'
        · exact Or.inl (List.Sublist.cons h h')
        · exact Or.inr (List.Sublist.cons h h')

/-- In forward mode a longer key always precedes a shorter one in
`tags_sorted_by_longest`, whatever else the TagMap contains. -/
theorem sorted_key_order (tm : TagMap) (A B : Str)
    (hAmem : A ∈ tm.map Prod.fst) (hBmem : B ∈ tm.map Prod.fst)
    (hlen : A.length < B.length) :
    List.Sublist [B, A] (tags_sorted_by_longest tm false) := by
  have htot : ∀ a b : Str, decide (b.length ≤ a.length) = true
      ∨ decide (a.length ≤ b.length) = true := by
    intro a b
    rcases Nat.le_total b.length a.length with h | h
    · exact Or.inl (decide_eq_true h)
    · exact Or.inr (decide_eq_true h)
  have htrans : ∀ a b c : Str, decide (b.length ≤ a.length) = true →
      decide (c.length ≤ b.length) = true → decide (c.length ≤ a.length) = true := by
    intro a b c h1 h2
    exact decide_eq_true (Nat.le_trans (of_decide_eq_true h2) (of_decide_eq_true h1))
  have heq : tags_sorted_by_longest tm false
      = pySorted (fun a b => decide (b.length ≤ a.length)) (tm.map Prod.fst) := by
    simp [tags_sorted_by_longest]
  have hpw := heq ▸ pySorted_pairwise _ htot htrans (tm.map Prod.fst)
  have hperm := tags_sorted_by_longest_perm tm false
  have hA' : A ∈ tags_sorted_by_longest tm false := hperm.mem_iff.mpr hAmem
  have hB' : B ∈ tags_sorted_by_longest tm false := hperm.mem_iff.mpr hBmem
  have hAB : A ≠ B := fun h => absurd (h ▸ hlen) (lt_irrefl B.length)
  rcases pair_sublist_of_mem _ A B hAB hA' hB' with h | h
  · exact absurd (of_decide_eq_true (List.pairwise_iff_forall_sublist.mp hpw h))
      (Nat.not_le.mpr hlen)
  · exact h

/-! ## Lemmas about `pyReplace` -/

theorem pyReplace_cons_empty (rep : Str) (c : Char) (rest : Str) :
    pyReplace (c :: rest) [] rep = rep ++ c :: pyReplace rest [] rep := by
  unfold pyReplace
  simp only [List.length_cons, pyReplaceAux]
  rw [if_neg (by simp)]
  simp

/-- Bridge from the executable prefix test to the propositional one. -/
theorem isPrefixOf_true {l₁ l₂ : Str} : l₁.isPrefixOf l₂ = true ↔ l₁ <+: l₂ :=
  List.isPrefixOf_iff_prefix

theorem nilPrefixOf (l : Str) : [] <+: l := ⟨l, rfl⟩

/-- A pattern that does not occur in `s` leaves `s` unchanged. -/
theorem pyReplace_of_no_occurrence {pat s : Str} (rep : Str) (h : ¬ pat <:+: s) :
    pyReplace s pat rep = s := by
  have hpat : pat ≠ [] := by
    intro he; subst he; exact h List.nil_infix
  induction s with
  | nil => simp [pyReplace_nil, hpat]
  | cons c rest ih =>
    have hnp : ¬ pat.isPrefixOf (c :: rest) = true := by
      intro hp
      exact h ((isPrefixOf_true.mp hp).isInfix)
    rw [pyReplace_cons_nomatch rep hpat hnp, ih (fun hi => h (List.infix_cons hi))]

/-- Replacing the whole string by `rep`. -/
theorem pyReplace_self (s rep : Str) : pyReplace s s rep = rep := by
  cases s with
  | nil => simp [pyReplace_nil]
  | cons c rest =>
    rw [pyReplace_cons_match rep (by simp) (isPrefixOf_true.mpr (List.prefix_refl _))]
    simp [pyReplace_nil]

/-- A block of characters disjoint from the pattern passes through
unchanged. -/
theorem pyReplace_append_disjoint {pat : Str} (rep : Str) (hpat : pat ≠ [])
    {x : Str} (y : Str) (hx : ∀ c ∈ x, c ∉ pat) :
    pyReplace (x ++ y) pat rep = x ++ pyReplace y pat rep := by
  induction x with
  | nil => simp
  | cons c x' ih =>
    have hnp : ¬ pat.isPrefixOf (c :: (x' ++ y)) = true := by
      intro hp
      have := isPrefixOf_true.mp hp
      cases pat with
      | nil => exact hpat rfl
      | cons p0 pr =>
        have h0 := (List.cons_prefix_cons.mp this).1
        exact hx c (List.mem_cons_self c x') (h0 ▸ List.mem_cons_self p0 pr)
    rw [List.cons_append, pyReplace_cons_nomatch rep hpat hnp,
      ih (fun c' hc' => hx c' (List.mem_cons_of_mem c hc')), List.cons_append]

/-- Replacing at the front of a string that starts with the pattern. -/
theorem pyReplace_pat_append {pat : Str} (rep : Str) (hpat : pat ≠ []) (y : Str) :
    pyReplace (pat ++ y) pat rep = rep ++ pyReplace y pat rep := by
  cases pat with
  | nil => exact absurd rfl hpat
  | cons p0 pr =>
    have hm : (p0 :: pr).isPrefixOf (p0 :: (pr ++ y)) = true := by
      rw [← List.cons_append]
      exact isPrefixOf_true.mpr (List.prefix_append _ _)
    rw [List.cons_append, pyReplace_cons_match rep (by simp) hm]
    have hdrop : (p0 :: (pr ++ y)).drop (p0 :: pr).length = y := by
      rw [← List.cons_append]
      exact List.drop_left _ _
    rw [hdrop]

/-- If a string's characters avoid both the pattern and the replacement,
being a prefix of the replaced string means being a prefix of the original
string. -/
theorem prefix_reflect (pat rep : Str) (hpat : pat ≠ []) (hrep : rep ≠ []) :
    ∀ (x ρ : Str), (∀ c ∈ ρ, c ∉ pat) → (∀ c ∈ ρ, c ∉ rep) →
      ρ <+: pyReplace x pat rep → ρ <+: x := by
  intro x
  induction x with
  | nil =>
    intro ρ _ _ hpre
    rw [pyReplace_nil, if_neg hpat] at hpre
    rw [List.prefix_nil.mp hpre]
  | cons c rest ih =>
    intro ρ h1 h2 hpre
    by_cases hm : pat.isPrefixOf (c :: rest) = true
    · rw [pyReplace_cons_match rep hpat hm] at hpre
      cases ρ with
      | nil => exact nilPrefixOf _
      | cons r0 ρ' =>
        cases hrep' : rep with
        | nil => exact absurd hrep' hrep
        | cons q0 qr =>
          rw [hrep', List.cons_append] at hpre
          have h0 := (List.cons_prefix_cons.mp hpre).1
          exact absurd (hrep' ▸ h0 ▸ List.mem_cons_self q0 qr)
            (h2 r0 (List.mem_cons_self r0 ρ'))
    · rw [pyReplace_cons_nomatch rep hpat hm] at hpre
      cases ρ with
      | nil => exact nilPrefixOf _
      | cons r0 ρ' =>
        obtain ⟨h0, hpre'⟩ := List.cons_prefix_cons.mp hpre
        exact List.cons_prefix_cons.mpr
          ⟨h0, ih ρ' (fun c' hc' => h1 c' (List.mem_cons_of_mem r0 hc'))
            (fun c' hc' => h2 c' (List.mem_cons_of_mem r0 hc')) hpre'⟩

/-- Characters of the replaced string come from the original string or
from the replacement. -/
theorem mem_pyReplace (pat rep : Str) (s : Str) :
    ∀ c, c ∈ pyReplace s pat rep → c ∈ s ∨ c ∈ rep := by
  cases s with
  | nil =>
    intro c hc
    rw [pyReplace_nil] at hc
    by_cases hpat : pat = []
    · rw [if_pos hpat] at hc; exact Or.inr hc
    · rw [if_neg hpat] at hc; exact absurd hc (List.not_mem_nil c)
  | cons c0 rest =>
    intro c hc
    by_cases hpat : pat = []
    · subst hpat
      rw [pyReplace_cons_empty] at hc
      rcases List.mem_append.mp hc with h | h
      · exact Or.inr h
      · rcases List.mem_cons.mp h with h' | h'
        · exact Or.inl (h' ▸ List.mem_cons_self c0 rest)
        · rcases mem_pyReplace [] rep rest c h' with h'' | h''
          · exact Or.inl (List.mem_cons_of_mem c0 h'')
          · exact Or.inr h''
    · by_cases hm : pat.isPrefixOf (c0 :: rest) = true
      · rw [pyReplace_cons_match rep hpat hm] at hc
        rcases List.mem_append.mp hc with h | h
        · exact Or.inr h
        · rcases mem_pyReplace pat rep ((c0 :: rest).drop pat.length) c h with h'' | h''
          · exact Or.inl (List.mem_of_mem_drop h'')
          · exact Or.inr h''
      · rw [pyReplace_cons_nomatch rep hpat hm] at hc
        rcases List.mem_cons.mp hc with h' | h'
        · exact Or.inl (h' ▸ List.mem_cons_self c0 rest)
        · rcases mem_pyReplace pat rep rest c h' with h'' | h''
          · exact Or.inl (List.mem_cons_of_mem c0 h'')
          · exact Or.inr h''
termination_by s.length
decreasing_by
  · simp only [List.length_cons]; omega
  · have : 0 < pat.length := List.length_pos.mpr hpat
    simp only [List.length_drop, List.length_cons]; omega
  · simp only [List.length_cons]; omega

/-- Single-tag round trip: replacing `k` by `v` and then `v` by `k`
restores the original string, provided no character of `v` occurs in it. -/
theorem pyReplace_roundtrip (k v : Str) (hk : k ≠ []) (hv : v ≠ []) :
    ∀ (s : Str), (∀ c ∈ v, c ∉ s) → pyReplace (pyReplace s k v) v k = s
  | [], _ => by rw [pyReplace_nil, if_neg hk, pyReplace_nil, if_neg hv]
  | c :: rest, hdisj => by
    by_cases hm : k.isPrefixOf (c :: rest) = true
    · obtain ⟨u, hu⟩ := isPrefixOf_true.mp hm
      have hdrop : (c :: rest).drop k.length = u := by rw [← hu]; exact List.drop_left _ _
      rw [pyReplace_cons_match v hk hm, hdrop, pyReplace_pat_append k hv,
        pyReplace_roundtrip k v hk hv u
          (fun c' hc' hmem => hdisj c' hc' (hu ▸ List.mem_append_right k hmem)),
        hu]
    · have hvh : ¬ v.isPrefixOf (c :: pyReplace rest k v) = true := by
        intro hp
        cases v with
        | nil => exact hv rfl
        | cons v0 vr =>
          have h0 := (List.cons_prefix_cons.mp (isPrefixOf_true.mp hp)).1
          exact hdisj v0 (List.mem_cons_self v0 vr) (h0 ▸ List.mem_cons_self c rest)
      rw [pyReplace_cons_nomatch v hk hm, pyReplace_cons_nomatch k hv hvh,
        pyReplace_roundtrip k v hk hv rest
          (fun c' hc' hmem => hdisj c' hc' (List.mem_cons_of_mem c hmem))]
termination_by s => s.length
decreasing_by
  · have h1 : 0 < k.length := List.length_pos.mpr hk
    have h2 : (k ++ u).length = (c :: rest).length := by rw [hu]
    rw [List.length_append] at h2
    simp only [List.length_cons] at h2 ⊢
    omega
  · simp only [List.length_cons]
    omega

/-- Two replacement passes whose patterns and replacements are
character-disjoint in the appropriate ways commute. -/
theorem pyReplace_comm (p q p' q' : Str) (hp : p ≠ []) (hp' : p' ≠ [])
    (hq : q ≠ []) (hq' : q' ≠ [])
    (hpp' : ∀ c ∈ p, c ∉ p') (hqp' : ∀ c ∈ q, c ∉ p') (hq'p : ∀ c ∈ q', c ∉ p) :
    ∀ (t : Str),
      pyReplace (pyReplace t p q) p' q' = pyReplace (pyReplace t p' q') p q
  | [] => by simp [pyReplace_nil, hp, hp']
  | c :: rest => by
    by_cases hm : p.isPrefixOf (c :: rest) = true
    · cases p with
      | nil => exact absurd rfl hp
      | cons p0 pr =>
        obtain ⟨u, hu⟩ := isPrefixOf_true.mp hm
        obtain ⟨h0, hpr⟩ := List.cons_prefix_cons.mp (⟨u, hu⟩ : p0 :: pr <+: c :: rest)
        obtain ⟨u', hu'⟩ := hpr
        have hdrop : (c :: rest).drop (p0 :: pr).length = u := by
          rw [← hu]; exact List.drop_left _ _
        have hcp : c ∈ p0 :: pr := h0 ▸ List.mem_cons_self p0 pr
        have hm' : ¬ p'.isPrefixOf (c :: rest) = true := by
          intro hx
          cases p' with
          | nil => exact hp' rfl
          | cons w0 wr =>
            have hw := (List.cons_prefix_cons.mp (isPrefixOf_true.mp hx)).1
            exact hpp' c hcp (hw ▸ List.mem_cons_self w0 wr)
        rw [pyReplace_cons_match q hp hm, hdrop,
          pyReplace_append_disjoint q' hp' (pyReplace u (p0 :: pr) q) hqp',
          pyReplace_cons_nomatch q' hp' hm']
        have hrest : rest = pr ++ u := by
          have := hu
          rw [List.cons_append] at this
          exact (List.cons.injEq _ _ _ _).mp this |>.2.symm
        rw [hrest,
          pyReplace_append_disjoint q' hp' u
            (fun c' hc' => hpp' c' (List.mem_cons_of_mem p0 hc')),
          show c :: (pr ++ pyReplace u p' q') = (p0 :: pr) ++ pyReplace u p' q' by
            rw [h0, List.cons_append],
          pyReplace_pat_append q hp,
          pyReplace_comm (p0 :: pr) q p' q' hp hp' hq hq' hpp' hqp' hq'p u]
    · by_cases hm' : p'.isPrefixOf (c :: rest) = true
      · cases p' with
        | nil => exact absurd rfl hp'
        | cons w0 wr =>
          obtain ⟨u, hu⟩ := isPrefixOf_true.mp hm'
          have h0 := (List.cons_prefix_cons.mp (⟨u, hu⟩ : w0 :: wr <+: c :: rest)).1
          have hdrop : (c :: rest).drop (w0 :: wr).length = u := by
            rw [← hu]; exact List.drop_left _ _
          have hcp' : c ∈ w0 :: wr := h0 ▸ List.mem_cons_self w0 wr
          rw [pyReplace_cons_match q' hp' hm', hdrop,
            pyReplace_append_disjoint q hp (pyReplace u (w0 :: wr) q')
              (fun c' hc' hc'' => hq'p c' hc' hc''),
            pyReplace_cons_nomatch q hp hm]
          have hrest : rest = wr ++ u := by
            have := hu
            rw [List.cons_append] at this
            exact (List.cons.injEq _ _ _ _).mp this |>.2.symm
          rw [hrest,
            pyReplace_append_disjoint q hp u
              (fun c' hc' hc'' => hpp' c' hc'' (List.mem_cons_of_mem w0 hc')),
            show c :: (wr ++ pyReplace u p q) = (w0 :: wr) ++ pyReplace u p q by
              rw [h0, List.cons_append],
            pyReplace_pat_append q' hp',
            pyReplace_comm p q (w0 :: wr) q' hp hp' hq hq' hpp' hqp' hq'p u]
      · have h1 : ¬ p'.isPrefixOf (c :: pyReplace rest p q) = true := by
          intro hx
          cases p' with
          | nil => exact hp' rfl
          | cons w0 wr =>
            obtain ⟨hw0, hwr⟩ := List.cons_prefix_cons.mp (isPrefixOf_true.mp hx)
            have : wr <+: rest :=
              prefix_reflect p q hp hq rest wr
                (fun c' hc' hc'' => hpp' c' hc'' (List.mem_cons_of_mem w0 hc'))
                (fun c' hc' hc'' => hqp' c' hc'' (List.mem_cons_of_mem w0 hc')) hwr
            exact hm' (isPrefixOf_true.mpr
              (List.cons_prefix_cons.mpr ⟨hw0, this⟩))
        have h2 : ¬ p.isPrefixOf (c :: pyReplace rest p' q') = true := by
          intro hx
          cases p with
          | nil => exact hp rfl
          | cons p0 pr =>
            obtain ⟨hp0, hpr⟩ := List.cons_prefix_cons.mp (isPrefixOf_true.mp hx)
            have : pr <+: rest :=
              prefix_reflect p' q' hp' hq' rest pr
                (fun c' hc' => hpp' c' (List.mem_cons_of_mem p0 hc'))
                (fun c' hc' hc'' => hq'p c' hc'' (List.mem_cons_of_mem p0 hc')) hpr
            exact hm (isPrefixOf_true.mpr
              (List.cons_prefix_cons.mpr ⟨hp0, this⟩))
        rw [pyReplace_cons_nomatch q hp hm, pyReplace_cons_nomatch q' hp' hm',
          pyReplace_cons_nomatch q' hp' h1, pyReplace_cons_nomatch q hp h2,
          pyReplace_comm p q p' q' hp hp' hq hq' hpp' hqp' hq'p rest]
termination_by t => t.length

/-! ## Multi-tag round trip -/

theorem nodup_pairwise {α : Type} {R : α → α → Prop} :
    ∀ (l : List α), l.Nodup → (∀ x ∈ l, ∀ y ∈ l, x ≠ y → R x y) → l.Pairwise R := by
  intro l
  induction l with
  | nil => intro _ _; exact List.Pairwise.nil
  | cons a l' ih =>
    intro hnd h
    rcases List.nodup_cons.mp hnd with ⟨ha, hnd'⟩
    refine List.Pairwise.cons (fun b hb => ?_) ?_
    · exact h a (List.mem_cons_self a l') b (List.mem_cons_of_mem a hb)
        (fun he => ha (he ▸ hb))
    · exact ih hnd' (fun x hx y hy hxy =>
        h x (List.mem_cons_of_mem a hx) y (List.mem_cons_of_mem a hy) hxy)

/-- With unique keys, looking a member's key up in the map returns its
value. -/
theorem tagValue_of_mem :
    ∀ (tm : TagMap), (tm.map Prod.fst).Nodup → ∀ p ∈ tm, tagValue tm p.1 = p.2 := by
  intro tm
  induction tm with
  | nil => intro _ p hp; exact absurd hp (List.not_mem_nil p)
  | cons q tm' ih =>
    intro hnd p hp
    simp only [List.map_cons] at hnd
    rcases List.nodup_cons.mp hnd with ⟨hq, hnd'⟩
    rcases List.mem_cons.mp hp with h | h
    · subst h
      simp [tagValue, List.find?]
    · have hne : (q.1 == p.1) = false := by
        rw [beq_eq_false_iff_ne]
        intro he
        apply hq
        rw [he]
        exact List.mem_map_of_mem Prod.fst h
      simp only [tagValue, List.find?, hne]
      exact ih hnd' p h

theorem pairs_map_eq (tm : TagMap) (hnd : (tm.map Prod.fst).Nodup) :
    (tm.map Prod.fst).map (fun k => (k, tagValue tm k)) = tm := by
  rw [List.map_map]
  have h : ∀ p ∈ tm, ((fun k => (k, tagValue tm k)) ∘ Prod.fst) p = id p := by
    intro p hp
    simp only [Function.comp_apply, id_eq]
    rw [tagValue_of_mem tm hnd p hp]
  rw [List.map_congr_left h, List.map_id]

/-- Forward substitution for a list of pairs followed by reverse
substitution in any order restores the original string, provided all tags
and values are nonempty and values share characters with nothing else. -/
theorem tagFold_roundtrip :
    ∀ (P : List (Str × Str)) (s : Str) (Q : List (Str × Str)),
      Q.Perm P →
      (∀ p ∈ P, p.1 ≠ []) →
      (∀ p ∈ P, p.2 ≠ []) →
      (∀ p ∈ P, ∀ c ∈ p.2, c ∉ s) →
      (∀ p ∈ P, ∀ q ∈ P, ∀ c ∈ p.2, c ∉ q.1) →
      P.Pairwise (fun p q => ∀ c ∈ p.2, c ∉ q.2) →
      tagFoldRev Q (tagFoldFwd P s) = s := by
  intro P
  induction P with
  | nil =>
    intro s Q hQ _ _ _ _ _
    rw [hQ.eq_nil]
    rfl
  | cons hd P' ih =>
    intro s Q hQ hk hv hvs hvk hpw
    have hsym : ∀ {x y : Str × Str},
        (∀ c ∈ x.2, c ∉ y.2) → (∀ c ∈ y.2, c ∉ x.2) :=
      fun hxy c hc hc' => hxy c hc' hc
    -- reorder the reverse passes to the exact reverse of the forward ones
    have hQrev : Q.Perm ((hd :: P').reverse) :=
      hQ.trans (List.reverse_perm (hd :: P')).symm
    have hfold : tagFoldRev Q (tagFoldFwd (hd :: P') s)
        = tagFoldRev ((hd :: P').reverse) (tagFoldFwd (hd :: P') s) := by
      apply hQrev.foldl_eq'
      intro x hx y hy z
      by_cases hxy : x = y
      · rw [hxy]
      · have hx' : x ∈ hd :: P' := hQ.mem_iff.mp hx
        have hy' : y ∈ hd :: P' := hQ.mem_iff.mp hy
        have hdisj : ∀ c ∈ x.2, c ∉ y.2 :=
          (hpw.forall (fun {a b} h => hsym h)) hx' hy' hxy
        exact pyReplace_comm x.2 x.1 y.2 y.1
          (hv x hx') (hv y hy') (hk x hx') (hk y hy')
          hdisj
          (fun c hc hc' => hvk y hy' x hx' c hc' hc)
          (fun c hc hc' => hvk x hx' y hy' c hc' hc)
          z
    rw [hfold]
    have hstep : tagFoldRev ((hd :: P').reverse) (tagFoldFwd (hd :: P') s)
        = pyReplace (tagFoldRev P'.reverse (tagFoldFwd P' (pyReplace s hd.1 hd.2)))
            hd.2 hd.1 := by
      simp only [tagFoldRev, tagFoldFwd, List.reverse_cons, List.foldl_append,
        List.foldl_cons, List.foldl_nil]
    rw [hstep]
    have hhd := List.pairwise_cons.mp hpw
    have hih : tagFoldRev P'.reverse (tagFoldFwd P' (pyReplace s hd.1 hd.2))
        = pyReplace s hd.1 hd.2 := by
      apply ih (pyReplace s hd.1 hd.2) P'.reverse (List.reverse_perm P')
        (fun p hp => hk p (List.mem_cons_of_mem hd hp))
        (fun p hp => hv p (List.mem_cons_of_mem hd hp))
        ?_
        (fun p hp q hq => hvk p (List.mem_cons_of_mem hd hp) q (List.mem_cons_of_mem hd hq))
        hhd.2
      intro p hp c hc hcmem
      rcases mem_pyReplace hd.1 hd.2 s c hcmem with h | h
      · exact hvs p (List.mem_cons_of_mem hd hp) c hc h
      · exact hhd.1 p hp c h hc
    rw [hih]
    exact pyReplace_roundtrip hd.1 hd.2
      (hk hd (List.mem_cons_self hd P')) (hv hd (List.mem_cons_self hd P')) s
      (hvs hd (List.mem_cons_self hd P'))

/-! ## `applyTags` as a fold over explicit pairs -/

theorem applyTags_false_eq (tm : TagMap) (s : Str) :
    applyTags tm false s
      = tagFoldFwd ((tags_sorted_by_longest tm false).map
          (fun k => (k, tagValue tm k))) s := by
  simp [applyTags, tagFoldFwd, List.foldl_map]

theorem applyTags_true_eq (tm : TagMap) (s : Str) :
    applyTags tm true s
      = tagFoldRev ((tags_sorted_by_longest tm true).map
          (fun k => (k, tagValue tm k))) s := by
  simp [applyTags, tagFoldRev, List.foldl_map]

/-! ## Lemmas about `recursive_replace` -/

theorem replace_in_file_text (tm : TagMap) (rev : Bool) (fp : Str) :
    ∀ (order : List Str) (s : Str),
      replace_in_file tm order rev fp (.text s)
        = (.text (order.foldl
              (fun d key =>
                if rev then pyReplace d (tagValue tm key) key
                else pyReplace d key (tagValue tm key)) s),
           List.replicate order.length (.wrote fp)) := by
  have hgen : ∀ (order : List Str) (s : Str) (evs : List REvent),
      order.foldl
        (fun acc key =>
          match acc.1 with
          | FileContent.text s' =>
            (FileContent.text (if rev then pyReplace s' (tagValue tm key) key
                  else pyReplace s' key (tagValue tm key)),
             acc.2 ++ [REvent.wrote fp])
          | FileContent.binary b => (FileContent.binary b, acc.2 ++ [REvent.diag fp]))
        (FileContent.text s, evs)
      = (FileContent.text (order.foldl
            (fun d key =>
              if rev then pyReplace d (tagValue tm key) key
              else pyReplace d key (tagValue tm key)) s),
         evs ++ List.replicate order.length (REvent.wrote fp)) := by
    intro order
    induction order with
    | nil => intro s evs; simp
    | cons key rest ih =>
      intro s evs
      simp only [List.foldl_cons]
      rw [ih]
      simp [List.replicate_succ]
  intro order s
  have := hgen order s []
  simpa [replace_in_file] using this

theorem replace_in_file_binary (tm : TagMap) (rev : Bool) (fp : Str) :
    ∀ (order : List Str) (bytes : List Nat),
      replace_in_file tm order rev fp (.binary bytes)
        = (.binary bytes, List.replicate order.length (.diag fp)) := by
  have hgen : ∀ (order : List Str) (bytes : List Nat) (evs : List REvent),
      order.foldl
        (fun acc key =>
          match acc.1 with
          | FileContent.text s' =>
            (FileContent.text (if rev then pyReplace s' (tagValue tm key) key
                  else pyReplace s' key (tagValue tm key)),
             acc.2 ++ [REvent.wrote fp])
          | FileContent.binary b => (FileContent.binary b, acc.2 ++ [REvent.diag fp]))
        (FileContent.binary bytes, evs)
      = (FileContent.binary bytes, evs ++ List.replicate order.length (REvent.diag fp)) := by
    intro order
    induction order with
    | nil => intro bytes evs; simp
    | cons key rest ih =>
      intro bytes evs
      simp only [List.foldl_cons]
      rw [ih]
      simp [List.replicate_succ]
  intro order bytes
  have := hgen order bytes []
  simpa [replace_in_file] using this

/-- The rewriter processes a concatenation of entry lists independently. -/
theorem recursive_replace_append (tm : TagMap) (order : List Str) (rev : Bool)
    (bp : Str) : ∀ (l1 l2 : List Entry),
    recursive_replace tm order rev bp (l1 ++ l2)
      = ((recursive_replace tm order rev bp l1).1
          ++ (recursive_replace tm order rev bp l2).1,
         (recursive_replace tm order rev bp l1).2
          ++ (recursive_replace tm order rev bp l2).2) := by
  intro l1
  induction l1 with
  | nil => intro l2; simp [recursive_replace]
  | cons e l1' ih =>
    intro l2
    simp only [List.cons_append, recursive_replace, List.append_eq]
    rw [ih]
    simp [List.append_assoc]

/-! ## Path lemmas for the cloner -/

/-- A path in which no key occurs is left unchanged by the
destination-path substitution. -/
theorem replace_in_dest_clean (tm : TagMap) :
    ∀ (order : List Str) (s : Str),
      (∀ key ∈ order, ¬ key <:+: s) → replace_in_dest tm order s = s := by
  intro order
  induction order with
  | nil => intro s _; rfl
  | cons key rest ih =>
    intro s h
    simp only [replace_in_dest, List.foldl_cons]
    rw [pyReplace_of_no_occurrence (tagValue tm key) (h key (List.mem_cons_self key rest))]
    exact ih s (fun k hk => h k (List.mem_cons_of_mem key hk))

theorem underPath_refl (p : Str) : underPath p p = true := by
  simp [underPath]

theorem underPath_join (d n : Str) : underPath d (joinPath d n) = true := by
  simp only [underPath, joinPath, Bool.or_eq_true]
  right
  apply isPrefixOf_true.mpr
  refine ⟨n, ?_⟩
  simp

theorem underPath_trans {a b c : Str} (h1 : underPath a b = true)
    (h2 : underPath b c = true) : underPath a c = true := by
  simp only [underPath, Bool.or_eq_true, beq_iff_eq, isPrefixOf_true] at h1 h2 ⊢
  rcases h1 with h1 | h1
  · subst h1; exact h2
  · rcases h2 with h2 | h2
    · subst h2; exact Or.inr h1
    · refine Or.inr (h1.trans ((List.prefix_append b ['/']).trans h2))

mutual

/-- When no tag key occurs in any accumulated raw destination path, every
clone action stays under the destination root. -/
theorem cdwr_dest_under (tm : TagMap) (order : List Str)
    (ign : Option (Str → Bool)) :
    ∀ (src destRaw : Str) (t : Entry),
      (∀ key ∈ order, ∀ pth ∈ rawDestPaths destRaw t, ¬ key <:+: pth) →
      ∀ op ∈ copy_directory_with_replace tm order ign src destRaw t,
        underPath destRaw op.dest = true
  | src, destRaw, .file n c m => by
    intro hclean op hop
    have hdr : replace_in_dest tm order destRaw = destRaw :=
      replace_in_dest_clean tm order destRaw
        (fun key hk => hclean key hk destRaw (by simp [rawDestPaths]))
    simp only [copy_directory_with_replace, hdr] at hop
    by_cases hres : resolve src = resolve destRaw
    · rw [if_pos hres] at hop
      exact absurd hop (List.not_mem_nil op)
    · rw [if_neg hres] at hop
      rcases List.mem_cons.mp hop with h | h
      · subst h
        simpa [CloneOp.dest] using underPath_refl destRaw
      · exact absurd h (List.not_mem_nil op)
  | src, destRaw, .dir n children => by
    intro hclean op hop
    have hdr : replace_in_dest tm order destRaw = destRaw :=
      replace_in_dest_clean tm order destRaw
        (fun key hk => hclean key hk destRaw (by simp [rawDestPaths]))
    simp only [copy_directory_with_replace, hdr] at hop
    rcases List.mem_cons.mp hop with h | h
    · subst h
      simpa [CloneOp.dest] using underPath_refl destRaw
    · exact go_dest_under tm order ign src destRaw children
        (fun key hk pth hp => hclean key hk pth (by
          simp only [rawDestPaths]
          exact List.mem_cons_of_mem _ hp)) op h

theorem go_dest_under (tm : TagMap) (order : List Str)
    (ign : Option (Str → Bool)) :
    ∀ (src destRaw : Str) (l : List Entry),
      (∀ key ∈ order, ∀ pth ∈ rawDestPathsList destRaw l, ¬ key <:+: pth) →
      ∀ op ∈ copy_directory_with_replace.go tm order ign src destRaw l,
        underPath destRaw op.dest = true
  | src, destRaw, [] => by
    intro _ op hop
    exact absurd hop (List.not_mem_nil op)
  | src, destRaw, e :: rest => by
    intro hclean op hop
    simp only [copy_directory_with_replace.go] at hop
    rcases List.mem_append.mp hop with h | h
    · split at h
      · exact absurd h (List.not_mem_nil op)
      · have hsub := cdwr_dest_under tm order ign (joinPath src e.name)
          (joinPath destRaw e.name) e
          (fun key hk pth hp => hclean key hk pth (by
            simp only [rawDestPathsList]
            exact List.mem_append_left _ hp)) op h
        exact underPath_trans (underPath_join destRaw e.name) hsub

    · exact go_dest_under tm order ign src destRaw rest
        (fun key hk pth hp => hclean key hk pth (by
          simp only [rawDestPathsList]
          exact List.mem_append_right _ hp)) op h

end

mutual

/-- Every copy action of the cloner carries the content and mode of some
regular file of the source tree. -/
theorem cdwr_copy_mem_files (tm : TagMap) (order : List Str)
    (ign : Option (Str → Bool)) :
    ∀ (src destRaw : Str) (t : Entry) (s' d' : Str) (c' : FileContent) (m' : Nat),
      CloneOp.copyfile s' d' c' m' ∈ copy_directory_with_replace tm order ign src destRaw t →
      (c', m') ∈ filesOfEntry t
  | src, destRaw, .file n c m, s', d', c', m' => by
    intro hop
    simp only [copy_directory_with_replace] at hop
    by_cases hres : resolve src = resolve (replace_in_dest tm order destRaw)
    · rw [if_pos hres] at hop
      exact absurd hop (List.not_mem_nil _)
    · rw [if_neg hres] at hop
      rcases List.mem_cons.mp hop with h | h
      · have hc : c' = c ∧ m' = m := by
          have := (CloneOp.copyfile.injEq _ _ _ _ _ _ _ _).mp h
          exact ⟨this.2.2.1, this.2.2.2⟩
        simp [filesOfEntry, hc.1, hc.2]
      · exact absurd h (List.not_mem_nil _)
  | src, destRaw, .dir n children, s', d', c', m' => by
    intro hop
    simp only [copy_directory_with_replace] at hop
    rcases List.mem_cons.mp hop with h | h
    · exact absurd h (by simp)
    · exact go_copy_mem_files tm order ign src
        (replace_in_dest tm order destRaw) children s' d' c' m' h

theorem go_copy_mem_files (tm : TagMap) (order : List Str)
    (ign : Option (Str → Bool)) :
    ∀ (src destRaw : Str) (l : List Entry) (s' d' : Str) (c' : FileContent) (m' : Nat),
      CloneOp.copyfile s' d' c' m' ∈ copy_directory_with_replace.go tm order ign src destRaw l →
      (c', m') ∈ filesOfList l
  | src, destRaw, [], s', d', c', m' => by
    intro hop
    exact absurd hop (List.not_mem_nil _)
  | src, destRaw, e :: rest, s', d', c', m' => by
    intro hop
    simp only [copy_directory_with_replace.go] at hop
    rcases List.mem_append.mp hop with h | h
    · split at h
      · exact absurd h (List.not_mem_nil _)
      · have := cdwr_copy_mem_files tm order ign (joinPath src e.name)
          (joinPath destRaw e.name) e s' d' c' m' h
        simp only [filesOfList]
        exact List.mem_append_left _ this
    · have := go_copy_mem_files tm order ign src destRaw rest s' d' c' m' h
      simp only [filesOfList]
      exact List.mem_append_right _ this

end

/-! ## Rewrite events stay under the rewrite root -/

theorem replace_in_file_events_path (tm : TagMap) (order : List Str)
    (rev : Bool) (fp : Str) (content : FileContent) :
    ∀ ev ∈ (replace_in_file tm order rev fp content).2, ev.path = fp := by
  intro ev hev
  cases content with
  | text s =>
    rw [replace_in_file_text] at hev
    rw [List.eq_of_mem_replicate hev]
    rfl
  | binary bytes =>
    rw [replace_in_file_binary] at hev
    rw [List.eq_of_mem_replicate hev]
    rfl

mutual

theorem rr_events_under (tm : TagMap) (order : List Str) (rev : Bool) :
    ∀ (bp : Str) (l : List Entry),
      ∀ ev ∈ (recursive_replace tm order rev bp l).2, underPath bp ev.path = true
  | bp, [] => by
    intro ev hev
    exact absurd hev (List.not_mem_nil ev)
  | bp, e :: rest => by
    intro ev hev
    simp only [recursive_replace] at hev
    rcases List.mem_append.mp hev with h | h
    · by_cases hig : ignoredName e.name = true
      · rw [if_pos hig] at h
        exact absurd h (List.not_mem_nil ev)
      · rw [if_neg hig] at h
        exact rrEntry_events_under tm order rev bp e ev h
    · exact rr_events_under tm order rev bp rest ev h

theorem rrEntry_events_under (tm : TagMap) (order : List Str) (rev : Bool) :
    ∀ (bp : Str) (e : Entry),
      ∀ ev ∈ (rrEntry tm order rev bp e).2, underPath bp ev.path = true
  | bp, .file n c m => by
    intro ev hev
    simp only [rrEntry] at hev
    rw [replace_in_file_events_path tm order rev (joinPath bp n) c ev hev]
    exact underPath_join bp n
  | bp, .dir n children => by
    intro ev hev
    simp only [rrEntry] at hev
    exact underPath_trans (underPath_join bp n)
      (rr_events_under tm order rev (joinPath bp n) children ev hev)

end

/-- Writing a node into the model filesystem makes it readable at its
path. -/
theorem fsGet_set (fs : FS) (p : Str) (nd : FSNode) :
    fsGet ((fs.filter (fun e => !(e.1 == p))) ++ [(p, nd)]) p = some nd := by
  unfold fsGet
  rw [List.find?_append]
  have h1 : (fs.filter (fun e => !(e.1 == p))).find? (fun e => e.1 == p) = none := by
    rw [List.find?_eq_none]
    intro x hx
    have h2 := (List.mem_filter.mp hx).2
    simp only [Bool.not_eq_eq_eq_not, Bool.not_true] at h2
    simp [h2]
  rw [h1]
  simp [List.find?]

/-! ## The claims -/

/-- C3 counterexample: tags `{"tRs": "QR", "Rs": "x"}` satisfy the claim's
hypotheses (`A = "Rs"` is a substring of `B = "tRs"`, shorter, and does not
occur in `TagMap[B] = "QR"`), and the content `"tRss"` contains an
occurrence of `B` — yet forward substitution gives `"Qx"`: the inserted
`"QR"` merged with the following `"s"`, the later `"Rs"` pass rewrote it,
the occurrence did not become `TagMap[B]`, and a stray `TagMap[A] = "x"`
is embedded. -/
theorem precedence_fails_with_boundary_merge :
    ("Rs".toList <:+: "tRs".toList)
    ∧ ("Rs".toList).length < ("tRs".toList).length
    ∧ ¬ ("Rs".toList <:+: "QR".toList)
    ∧ ("tRs".toList <:+: "tRss".toList)
    ∧ applyTags [("tRs".toList, "QR".toList), ("Rs".toList, "x".toList)] false
        "tRss".toList = "Qx".toList
    ∧ ¬ ("QR".toList <:+: "Qx".toList)
    ∧ ("x".toList <:+: "Qx".toList) := by
  refine ⟨by decide, by decide, by decide, by decide, by decide, by decide, by decide⟩

/-- C3 (amended): for keys `A`, `B` of any TagMap with `A` a substring of
`B` and `len A < len B`, the sorted key order always puts `B` before `A`
(no short tag shadows a longer one), and for the two-key map forward
substitution of content consisting exactly of an occurrence of `B` yields
`TagMap[B]` (given `A` does not occur in `TagMap[B]`) — in particular
`{"ab": "X", "abc": "Y"}` on `"abc"` gives `"Y"`, never `"Xc"`.  When text
surrounds the occurrence, the replacement can merge with it and a later
shorter-key pass may embed a stray `TagMap[A]`, as the counterexample
shows. -/
theorem forward_precedence_longest_first (tm : TagMap) (A x B y : Str)
    (hAmem : A ∈ tm.map Prod.fst) (hBmem : B ∈ tm.map Prod.fst)
    (hA : A ≠ []) (hsub : A <:+: B) (hlen : A.length < B.length)
    (hstray : ¬ A <:+: y) :
    List.Sublist [B, A] (tags_sorted_by_longest tm false)
    ∧ tags_sorted_by_longest [(A, x), (B, y)] false = [B, A]
    ∧ applyTags [(A, x), (B, y)] false B = y := by
  have hAB : A ≠ B := fun h => absurd (h ▸ hlen) (lt_irrefl B.length)
  have hle : decide (B.length ≤ A.length) = false := by
    simp [Nat.not_le.mpr hlen]
  have hsorted : tags_sorted_by_longest [(A, x), (B, y)] false = [B, A] := by
    simp [tags_sorted_by_longest, pySorted, stableInsert, hle]
  refine ⟨sorted_key_order tm A B hAmem hBmem hlen, hsorted, ?_⟩
  have htvB : tagValue [(A, x), (B, y)] B = y := by
    have hne : (A == B) = false := by rw [beq_eq_false_iff_ne]; exact hAB
    simp [tagValue, List.find?, hne]
  have htvA : tagValue [(A, x), (B, y)] A = x := by
    simp [tagValue, List.find?]
  simp only [applyTags, hsorted, List.foldl_cons, List.foldl_nil, if_false,
    Bool.false_eq_true, htvB, htvA]
  rw [pyReplace_self, pyReplace_of_no_occurrence x hstray]

/-- C3 witness: the spec's own example, tags `{"ab": "X", "abc": "Y"}` on
input `"abc"`. -/
theorem forward_precedence_longest_first_witness :
    List.Sublist ["abc".toList, "ab".toList]
      (tags_sorted_by_longest
        [("ab".toList, "X".toList), ("abc".toList, "Y".toList)] false)
    ∧ tags_sorted_by_longest [("ab".toList, "X".toList), ("abc".toList, "Y".toList)] false
      = ["abc".toList, "ab".toList]
    ∧ applyTags [("ab".toList, "X".toList), ("abc".toList, "Y".toList)] false "abc".toList
      = "Y".toList :=
  forward_precedence_longest_first
    [("ab".toList, "X".toList), ("abc".toList, "Y".toList)]
    "ab".toList "X".toList "abc".toList "Y".toList
    (by decide) (by decide) (by decide) (by decide) (by decide) (by decide)

/-- C8: for a processed file the rewriter performs one read/substitute/write
cycle per tag-map key: a text file gets `len(TagMap)` write-backs, and a
file failing text decoding gets `len(TagMap)` diagnostics, not one. -/
theorem per_key_write_cycles (tm : TagMap) (rev : Bool) (basepath name s : Str)
    (bytes : List Nat) (mode : Nat) (hname : ignoredName name = false) :
    (recursive_replace tm (tags_sorted_by_longest tm rev) rev basepath
        [.file name (.text s) mode]).2
      = List.replicate tm.length (.wrote (joinPath basepath name))
    ∧ (recursive_replace tm (tags_sorted_by_longest tm rev) rev basepath
        [.file name (.binary bytes) mode]).2
      = List.replicate tm.length (.diag (joinPath basepath name)) := by
  constructor
  · simp [recursive_replace, Entry.name, hname, rrEntry, replace_in_file_text,
      tags_sorted_by_longest_length]
  · simp [recursive_replace, Entry.name, hname, rrEntry, replace_in_file_binary,
      tags_sorted_by_longest_length]

/-- C8 witness at a two-key map: two write-backs for a text file, two
diagnostics for a binary file. -/
theorem per_key_write_cycles_witness :
    (recursive_replace [("a".toList, "1".toList), ("b".toList, "2".toList)]
        (tags_sorted_by_longest [("a".toList, "1".toList), ("b".toList, "2".toList)] false)
        false "r".toList [.file "f".toList (.text "ab".toList) 420]).2
      = List.replicate 2 (.wrote "r/f".toList)
    ∧ (recursive_replace [("a".toList, "1".toList), ("b".toList, "2".toList)]
        (tags_sorted_by_longest [("a".toList, "1".toList), ("b".toList, "2".toList)] false)
        false "r".toList [.file "f".toList (.binary [0, 159]) 420]).2
      = List.replicate 2 (.diag "r/f".toList) :=
  per_key_write_cycles [("a".toList, "1".toList), ("b".toList, "2".toList)]
    false "r".toList "f".toList "ab".toList [0, 159] 420 (by decide)

/-- C5: a file whose content is not decodable text is left byte-for-byte
unmodified, produces (non-fatal) diagnostics, and the surrounding entries
are still processed — the run completes. -/
theorem binary_file_skipped (tm : TagMap) (rev : Bool) (basepath name : Str)
    (bytes : List Nat) (mode : Nat) (l1 l2 : List Entry)
    (hname : ignoredName name = false) (htm : tm ≠ []) :
    recursive_replace tm (tags_sorted_by_longest tm rev) rev basepath
        (l1 ++ .file name (.binary bytes) mode :: l2)
      = ((recursive_replace tm (tags_sorted_by_longest tm rev) rev basepath l1).1
          ++ .file name (.binary bytes) mode
            :: (recursive_replace tm (tags_sorted_by_longest tm rev) rev basepath l2).1,
         (recursive_replace tm (tags_sorted_by_longest tm rev) rev basepath l1).2
          ++ (List.replicate tm.length (.diag (joinPath basepath name))
              ++ (recursive_replace tm (tags_sorted_by_longest tm rev) rev basepath l2).2))
    ∧ REvent.diag (joinPath basepath name)
        ∈ (recursive_replace tm (tags_sorted_by_longest tm rev) rev basepath
            (l1 ++ .file name (.binary bytes) mode :: l2)).2 := by
  have heq : recursive_replace tm (tags_sorted_by_longest tm rev) rev basepath
        (l1 ++ .file name (.binary bytes) mode :: l2)
      = ((recursive_replace tm (tags_sorted_by_longest tm rev) rev basepath l1).1
          ++ .file name (.binary bytes) mode
            :: (recursive_replace tm (tags_sorted_by_longest tm rev) rev basepath l2).1,
         (recursive_replace tm (tags_sorted_by_longest tm rev) rev basepath l1).2
          ++ (List.replicate tm.length (.diag (joinPath basepath name))
              ++ (recursive_replace tm (tags_sorted_by_longest tm rev) rev basepath l2).2)) := by
    rw [recursive_replace_append]
    simp [recursive_replace, Entry.name, hname, rrEntry, replace_in_file_binary,
      tags_sorted_by_longest_length]
  refine ⟨heq, ?_⟩
  rw [heq]
  apply List.mem_append_right
  apply List.mem_append_left
  rw [List.mem_replicate]
  exact ⟨fun h => htm (List.length_eq_zero.mp h), rfl⟩

/-- C5 witness: a binary file between two text files. -/
theorem binary_file_skipped_witness :
    recursive_replace [("T".toList, "v".toList)]
        (tags_sorted_by_longest [("T".toList, "v".toList)] false) false "r".toList
        ([.file "a".toList (.text "T".toList) 420]
          ++ .file "b".toList (.binary [255]) 420
            :: [.file "c".toList (.text "TT".toList) 420])
      = ((recursive_replace [("T".toList, "v".toList)]
            (tags_sorted_by_longest [("T".toList, "v".toList)] false) false "r".toList
            [.file "a".toList (.text "T".toList) 420]).1
          ++ .file "b".toList (.binary [255]) 420
            :: (recursive_replace [("T".toList, "v".toList)]
                (tags_sorted_by_longest [("T".toList, "v".toList)] false) false "r".toList
                [.file "c".toList (.text "TT".toList) 420]).1,
         (recursive_replace [("T".toList, "v".toList)]
            (tags_sorted_by_longest [("T".toList, "v".toList)] false) false "r".toList
            [.file "a".toList (.text "T".toList) 420]).2
          ++ (List.replicate 1 (.diag "r/b".toList)
              ++ (recursive_replace [("T".toList, "v".toList)]
                  (tags_sorted_by_longest [("T".toList, "v".toList)] false) false "r".toList
                  [.file "c".toList (.text "TT".toList) 420]).2))
    ∧ REvent.diag "r/b".toList
        ∈ (recursive_replace [("T".toList, "v".toList)]
            (tags_sorted_by_longest [("T".toList, "v".toList)] false) false "r".toList
            ([.file "a".toList (.text "T".toList) 420]
              ++ .file "b".toList (.binary [255]) 420
                :: [.file "c".toList (.text "TT".toList) 420])).2 :=
  binary_file_skipped [("T".toList, "v".toList)] false "r".toList "b".toList
    [255] 420 [.file "a".toList (.text "T".toList) 420]
    [.file "c".toList (.text "TT".toList) 420] (by decide) (by decide)

/-- C10: the rewriter skips any entry whose name contains `".DS_Store"`,
`".idea"` or `"__pycache__"` as a substring — it is neither rewritten nor
recursed into and produces no events (so `"my.idea.txt"` is never
rewritten) — while the cloner, whose ignore argument defaults to `None`,
applies no filtering and still copies such entries. -/
theorem ignored_names_rewriter_only (tm : TagMap) (order : List Str)
    (rev : Bool) (basepath src dest : Str) (e : Entry) (rest : List Entry)
    (h : ignoredName e.name = true) :
    recursive_replace tm order rev basepath (e :: rest)
      = (e :: (recursive_replace tm order rev basepath rest).1,
         (recursive_replace tm order rev basepath rest).2)
    ∧ ignoredName "my.idea.txt".toList = true
    ∧ copy_directory_with_replace.go tm order none src dest (e :: rest)
      = copy_directory_with_replace tm order none
          (joinPath src e.name) (joinPath dest e.name) e
        ++ copy_directory_with_replace.go tm order none src dest rest := by
  refine ⟨?_, by decide, ?_⟩
  · simp [recursive_replace, h]
  · simp [copy_directory_with_replace.go]

/-- C10 witness: a `.DS_Store` file is skipped by the rewriter but still
copied by the cloner. -/
theorem ignored_names_rewriter_only_witness :
    recursive_replace [] [] false "r".toList
        [.file ".DS_Store".toList (.text "x".toList) 420]
      = (.file ".DS_Store".toList (.text "x".toList) 420
          :: (recursive_replace [] [] false "r".toList []).1,
         (recursive_replace [] [] false "r".toList []).2)
    ∧ ignoredName "my.idea.txt".toList = true
    ∧ copy_directory_with_replace.go [] [] none "s".toList "o".toList
        [.file ".DS_Store".toList (.text "x".toList) 420]
      = copy_directory_with_replace [] [] none
          (joinPath "s".toList ".DS_Store".toList)
          (joinPath "o".toList ".DS_Store".toList)
          (.file ".DS_Store".toList (.text "x".toList) 420)
        ++ copy_directory_with_replace.go [] [] none "s".toList "o".toList [] :=
  ignored_names_rewriter_only [] [] false "r".toList "s".toList "o".toList
    (.file ".DS_Store".toList (.text "x".toList) 420) [] (by decide)

/-- C9: the cloner substitutes tags in the whole accumulated destination
path at every level — the general equations expose that a directory's
already-substituted path is substituted again for each child, and the
concrete run with tag `{"b": "bb"}` and `--out` root `"b"` shows the
`--out` prefix itself being rewritten (`"b"` → `"bb"`) and the same source
directory name `"b"` surfacing as `"bb"`, `"bbbb"` and `"bbbbbbbb"`
depending on its depth. -/
theorem accumulated_path_resubstitution (tm : TagMap) (order : List Str)
    (ign : Option (Str → Bool)) (src destRaw dn : Str) (children : List Entry) :
    copy_directory_with_replace tm order ign src destRaw (.dir dn children)
      = .ensureDir (replace_in_dest tm order destRaw)
        :: copy_directory_with_replace.go tm order ign src
            (replace_in_dest tm order destRaw) children
    ∧ (∀ (e : Entry) (rest : List Entry) (dest : Str),
        copy_directory_with_replace.go tm order none src dest (e :: rest)
          = copy_directory_with_replace tm order none
              (joinPath src e.name) (joinPath dest e.name) e
            ++ copy_directory_with_replace.go tm order none src dest rest)
    ∧ copy_directory_with_replace [("b".toList, "bb".toList)]
        (tags_sorted_by_longest [("b".toList, "bb".toList)] false) none
        "s".toList "b".toList (.dir [] [.dir "b".toList [.dir "b".toList []]])
      = [.ensureDir "bb".toList, .ensureDir "bbbb/bb".toList,
         .ensureDir "bbbbbbbb/bbbb/bb".toList] := by
  refine ⟨rfl, ?_, by decide⟩
  intro e rest dest
  simp [copy_directory_with_replace.go]

/-- C2 counterexample: with the `--out` root absent and the tag-map
resource missing, `__main__` creates the `--out` directory *before* the
failing load — a filesystem mutation precedes the fatal abort. -/
theorem mutation_before_resource_fatal :
    mainPhases false none "tpl".toList "out".toList false
      = [.createOutRoot "out".toList, .resourceFatal]
    ∧ Phase.createOutRoot "out".toList
        ∈ mainPhases false none "tpl".toList "out".toList false := by
  exact ⟨rfl, by decide⟩

/-- C2 (amended): a missing or malformed tag-map resource aborts the run
before any clone or rewrite phase — no file is copied and no content is
rewritten — but the `--out` root directory itself may already have been
created. -/
theorem resource_fatal_before_clone_and_rewrite (outExists : Bool)
    (source out : Str) (reverse : Bool) :
    ∀ p ∈ mainPhases outExists none source out reverse,
      p = .createOutRoot out ∨ p = .resourceFatal := by
  intro p hp
  unfold mainPhases at hp
  cases outExists with
  | true =>
    simp only [if_true, List.nil_append] at hp
    rcases List.mem_cons.mp hp with h | h
    · exact Or.inr h
    · exact absurd h (List.not_mem_nil p)
  | false =>
    simp only [if_false, Bool.false_eq_true, List.cons_append, List.nil_append] at hp
    rcases List.mem_cons.mp hp with h | h
    · exact Or.inl h
    · rcases List.mem_cons.mp h with h' | h'
      · exact Or.inr h'
      · exact absurd h' (List.not_mem_nil p)

theorem resource_fatal_before_clone_and_rewrite_witness :
    Phase.resourceFatal = Phase.createOutRoot "o".toList
    ∨ Phase.resourceFatal = Phase.resourceFatal :=
  resource_fatal_before_clone_and_rewrite false "s".toList "o".toList false
    .resourceFatal (by decide)

/-- C4 counterexample: `__main__` compares the raw `--source` and `--out`
strings, not resolved paths.  With `--source "./T"` and `--out "T"` — which
resolve to the same path — and tag `{"T": "X"}`, the clone phase still runs
and performs one file copy (to the substituted destination `"X/f"`). -/
theorem same_resolved_path_still_copies :
    resolve "./T".toList = resolve "T".toList
    ∧ "./T".toList ≠ "T".toList
    ∧ Phase.clonePhase "./T".toList "T".toList
        ∈ mainPhases true (some [("T".toList, "X".toList)])
            "./T".toList "T".toList false
    ∧ (copy_directory_with_replace [("T".toList, "X".toList)]
          (tags_sorted_by_longest [("T".toList, "X".toList)] false) none
          "./T".toList "T".toList
          (.dir [] [.file "f".toList (.text "hi".toList) 420])).countP isCopyOp
      = 1 := by
  refine ⟨by decide, by decide, by decide, by decide⟩

/-- C4 (amended): when `--source` and `--out` are equal *as strings*, the
clone phase is skipped entirely and only content rewriting runs on the
existing tree; equality after path resolution is not sufficient. -/
theorem same_string_path_skips_clone (outExists : Bool) (tm : TagMap)
    (source out : Str) (rev : Bool) (h : source = out) :
    mainPhases outExists (some tm) source out rev
      = (if outExists then [] else [.createOutRoot out])
        ++ [.rewritePhase out rev] := by
  unfold mainPhases
  simp [h]

theorem same_string_path_skips_clone_witness :
    mainPhases true (some []) "x".toList "x".toList false
      = (if true then [] else [.createOutRoot "x".toList])
        ++ [.rewritePhase "x".toList false] :=
  same_string_path_skips_clone true [] "x".toList "x".toList false rfl

/-- C7 counterexample: with `--out` nested inside `--source`
(`--source "s"`, `--out "s/o"`, so the two differ), cloning creates a
directory and a file under the `--source` tree. -/
theorem clone_writes_under_source :
    "s".toList ≠ "s/o".toList
    ∧ copy_directory_with_replace []
        (tags_sorted_by_longest [] false) none "s".toList "s/o".toList
        (.dir [] [.file "f".toList (.text "hi".toList) 420])
      = [.ensureDir "s/o".toList,
         .copyfile "s/f".toList "s/o/f".toList (.text "hi".toList) 420]
    ∧ underPath "s".toList "s/o".toList = true
    ∧ underPath "s".toList "s/o/f".toList = true := by
  refine ⟨by decide, by decide, by decide, by decide⟩

/-- C7 (amended): every clone action targets a tag-substituted destination
path, so when no tag key occurs in any accumulated raw destination path all
clone mutations stay under the clone's destination root, and every rewrite
write or diagnostic stays under the rewrite root; but the destination root
may itself lie under `--source` (and tag substitution can move destination
paths elsewhere), so mutations are not in general confined away from
`--source` when `--source ≠ --out`. -/
theorem mutations_under_roots (tm : TagMap) (order : List Str)
    (ign : Option (Str → Bool)) (rev : Bool) (src out basepath : Str)
    (t : Entry) (es : List Entry)
    (hclean : ∀ key ∈ order, ∀ pth ∈ rawDestPaths out t, ¬ key <:+: pth) :
    (∀ op ∈ copy_directory_with_replace tm order ign src out t,
      underPath out op.dest = true)
    ∧ (∀ ev ∈ (recursive_replace tm order rev basepath es).2,
        underPath basepath ev.path = true) :=
  ⟨fun op hop => cdwr_dest_under tm order ign src out t hclean op hop,
   fun ev hev => rr_events_under tm order rev basepath es ev hev⟩

theorem mutations_under_roots_witness :
    (∀ op ∈ copy_directory_with_replace [("T".toList, "v".toList)]
        (tags_sorted_by_longest [("T".toList, "v".toList)] false) none
        "s".toList "o".toList
        (.dir [] [.file "f".toList (.text "T".toList) 420]),
      underPath "o".toList op.dest = true)
    ∧ (∀ ev ∈ (recursive_replace [("T".toList, "v".toList)]
          (tags_sorted_by_longest [("T".toList, "v".toList)] false) false
          "o".toList [.file "f".toList (.text "T".toList) 420]).2,
        underPath "o".toList ev.path = true) :=
  mutations_under_roots [("T".toList, "v".toList)]
    (tags_sorted_by_longest [("T".toList, "v".toList)] false) none false
    "s".toList "o".toList "o".toList
    (.dir [] [.file "f".toList (.text "T".toList) 420])
    [.file "f".toList (.text "T".toList) 420] (by decide)

/-- C6: every copy action carries the content and mode of a source file;
for a cloned regular file (not a copy-to-self) the destination filesystem
entry at the substituted path holds byte-for-byte the source content and
the source permission bits, so an executable source file is still
executable at the destination. -/
theorem clone_copies_bytes_and_mode (tm : TagMap) (order : List Str)
    (ign : Option (Str → Bool)) (src destRaw n : Str) (c : FileContent)
    (m : Nat) (fs : FS)
    (h : resolve src ≠ resolve (replace_in_dest tm order destRaw)) :
    (∀ (src' dest' : Str) (t : Entry) (s' d' : Str) (c' : FileContent) (m' : Nat),
        CloneOp.copyfile s' d' c' m'
            ∈ copy_directory_with_replace tm order ign src' dest' t →
        (c', m') ∈ filesOfEntry t)
    ∧ copy_directory_with_replace tm order ign src destRaw (.file n c m)
        = [.copyfile src (replace_in_dest tm order destRaw) c m]
    ∧ fsGet (applyCloneOps fs
          [.copyfile src (replace_in_dest tm order destRaw) c m])
        (replace_in_dest tm order destRaw) = some (.fileNode c m)
    ∧ (hasExecBit m = true →
        (fsGet (applyCloneOps fs
              [.copyfile src (replace_in_dest tm order destRaw) c m])
            (replace_in_dest tm order destRaw)).map nodeExec = some true) := by
  have h3 : fsGet (applyCloneOps fs
        [.copyfile src (replace_in_dest tm order destRaw) c m])
      (replace_in_dest tm order destRaw) = some (.fileNode c m) := by
    simp only [applyCloneOps, List.foldl_cons, List.foldl_nil, applyCloneOp]
    exact fsGet_set fs _ _
  refine ⟨fun src' dest' t s' d' c' m' hop =>
      cdwr_copy_mem_files tm order ign src' dest' t s' d' c' m' hop,
    ?_, h3, ?_⟩
  · simp [copy_directory_with_replace, h]
  · intro hx
    rw [h3]
    simp [nodeExec, hx]

/-- C6 witness: an executable file (mode `0o755 = 493`). -/
theorem clone_copies_bytes_and_mode_witness :
    (∀ (src' dest' : Str) (t : Entry) (s' d' : Str) (c' : FileContent) (m' : Nat),
        CloneOp.copyfile s' d' c' m'
            ∈ copy_directory_with_replace [] [] none src' dest' t →
        (c', m') ∈ filesOfEntry t)
    ∧ copy_directory_with_replace [] [] none "s/f".toList "o/f".toList
        (.file "f".toList (.text "hi".toList) 493)
        = [.copyfile "s/f".toList (replace_in_dest [] [] "o/f".toList)
            (.text "hi".toList) 493]
    ∧ fsGet (applyCloneOps []
          [.copyfile "s/f".toList (replace_in_dest [] [] "o/f".toList)
            (.text "hi".toList) 493])
        (replace_in_dest [] [] "o/f".toList)
        = some (.fileNode (.text "hi".toList) 493)
    ∧ (hasExecBit 493 = true →
        (fsGet (applyCloneOps []
              [.copyfile "s/f".toList (replace_in_dest [] [] "o/f".toList)
                (.text "hi".toList) 493])
            (replace_in_dest [] [] "o/f".toList)).map nodeExec = some true) :=
  clone_copies_bytes_and_mode [] [] none "s/f".toList "o/f".toList
    "f".toList (.text "hi".toList) 493 [] (by decide)

/-- C1 counterexample: tag map `{"T": "v"}` (all values unique) and the
one-file template tree `T0 = [file "T" containing "vv"]`.  Forward cloning
renames the file to `"v"`; the reverse run never renames it back and
rewrites the content `"vv"` to `"TT"`, so `reverse(forward(T0)) ≠ T0` both
in file names and in file contents. -/
theorem roundtrip_counterexample :
    (([("T".toList, "v".toList)] : TagMap).map Prod.snd).Nodup
    ∧ listing [] (runPipeline [("T".toList, "v".toList)] true
        (runPipeline [("T".toList, "v".toList)] false
          [.file "T".toList (.text "vv".toList) 420] "s".toList "o1".toList)
        "o1".toList "o2".toList)
      ≠ listing [] [.file "T".toList (.text "vv".toList) 420]
    ∧ (listing [] (runPipeline [("T".toList, "v".toList)] true
        (runPipeline [("T".toList, "v".toList)] false
          [.file "T".toList (.text "vv".toList) 420] "s".toList "o1".toList)
        "o1".toList "o2".toList)).map Prod.fst
      ≠ (listing [] [.file "T".toList (.text "vv".toList) 420]).map Prod.fst
    ∧ (listing [] (runPipeline [("T".toList, "v".toList)] true
        (runPipeline [("T".toList, "v".toList)] false
          [.file "T".toList (.text "vv".toList) 420] "s".toList "o1".toList)
        "o1".toList "o2".toList)).map (fun x => x.2.1)
      ≠ (listing [] [.file "T".toList (.text "vv".toList) 420]).map (fun x => x.2.1) := by
  refine ⟨by decide, by decide, by decide, by decide⟩

/-- C1 (amended): forward substitution followed by reverse substitution
restores a file's *content* whenever the tag map has unique keys, nonempty
keys and values, and each value shares no character with the content, with
any key, or with any other value.  (File names are not restored in
general: reverse mode never renames, as the counterexample shows.) -/
theorem content_roundtrip (tm : TagMap) (s : Str)
    (hnd : (tm.map Prod.fst).Nodup)
    (hk : ∀ p ∈ tm, p.1 ≠ [])
    (hv : ∀ p ∈ tm, p.2 ≠ [])
    (hvs : ∀ p ∈ tm, ∀ c ∈ p.2, c ∉ s)
    (hvk : ∀ p ∈ tm, ∀ q ∈ tm, ∀ c ∈ p.2, c ∉ q.1)
    (hvv : ∀ p ∈ tm, ∀ q ∈ tm, p ≠ q → ∀ c ∈ p.2, c ∉ q.2) :
    applyTags tm true (applyTags tm false s) = s := by
  rw [applyTags_false_eq, applyTags_true_eq]
  have hPperm : ((tags_sorted_by_longest tm false).map
      (fun k => (k, tagValue tm k))).Perm tm := by
    have h1 := (tags_sorted_by_longest_perm tm false).map (fun k => (k, tagValue tm k))
    rwa [pairs_map_eq tm hnd] at h1
  have hQperm : ((tags_sorted_by_longest tm true).map
      (fun k => (k, tagValue tm k))).Perm tm := by
    have h1 := (tags_sorted_by_longest_perm tm true).map (fun k => (k, tagValue tm k))
    rwa [pairs_map_eq tm hnd] at h1
  apply tagFold_roundtrip _ s _ (hQperm.trans hPperm.symm)
  · intro p hp; exact hk p (hPperm.mem_iff.mp hp)
  · intro p hp; exact hv p (hPperm.mem_iff.mp hp)
  · intro p hp; exact hvs p (hPperm.mem_iff.mp hp)
  · intro p hp q hq; exact hvk p (hPperm.mem_iff.mp hp) q (hPperm.mem_iff.mp hq)
  · have htmnd : tm.Nodup := hnd.of_map
    have hpw : tm.Pairwise (fun p q => ∀ c ∈ p.2, c ∉ q.2) :=
      nodup_pairwise tm htmnd (fun x hx y hy hxy => hvv x hx y hy hxy)
    exact (hPperm.pairwise_iff (fun {a b} hab c hc hc' => hab c hc' hc)).mpr hpw

/-- C1 witness: tag `{"A": "z"}` on content `"A A"` round-trips. -/
theorem content_roundtrip_witness :
    applyTags [("A".toList, "z".toList)] true
      (applyTags [("A".toList, "z".toList)] false "A A".toList) = "A A".toList :=
  content_roundtrip [("A".toList, "z".toList)] "A A".toList (by decide)
    (by decide) (by decide) (by decide) (by decide) (by decide)

end LRT
